import Mathlib

/-!
Shallow embedding of the ranking-and-synthesis pipeline implemented in
`src/youtube-agent/src/app/api/analyze/route.ts`, together with proofs of the
behavioural properties stated in the specification.

Conventions used by the embedding:
* JavaScript numbers that hold view counts are modelled as `Nat`; minute counts
  (which involve the exact fraction 1/60) are modelled as `ℚ`; the composite
  score (which involves `log10` and `exp`) is modelled as `ℝ`.
* Optional JavaScript fields are modelled as `Option`; the `??` operator is
  `Option.getD` and JavaScript falsiness of a string is `= ""` (or `none`).
* String operations are modelled on `List Char` so that every definition
  reduces by kernel computation; `toLowerStr` models `String.toLowerCase`
  (ASCII case mapping, which is all the route ever feeds it after the
  character classes `[a-z0-9]` are applied).
* `isJsSpace` models the ASCII part of the JavaScript `\s` character class.
  Unicode space characters are mapped to `' '` by `normalizeChar` instead of
  being kept, which produces the same token sequence either way.
-/

/-- ASCII whitespace characters of the JavaScript `\s` class. -/
def isJsSpace (c : Char) : Bool :=
  c = ' ' || c = '\t' || c = '\n' || c = '\r' || c = '\x0b' || c = '\x0c'

/-- Characters kept by the `replace(/[^a-z0-9\s]/g, " ")` step: `[a-z0-9]`. -/
def isTokenChar (c : Char) : Bool :=
  ('a' ≤ c && c ≤ 'z') || ('0' ≤ c && c ≤ '9')

/-- ASCII digits, the JavaScript `\d` class. -/
def isDigitChar (c : Char) : Bool :=
  '0' ≤ c && c ≤ '9'

/-- The JavaScript `\w` class: letters, digits and underscore. -/
def isWordChar (c : Char) : Bool :=
  ('a' ≤ c && c ≤ 'z') || ('A' ≤ c && c ≤ 'Z') || ('0' ≤ c && c ≤ '9') || c = '_'

/-- Model of `String.prototype.toLowerCase` (ASCII case mapping). -/
def toLowerStr (s : String) : String :=
  String.mk (s.toList.map Char.toLower)

/-- Model of `String.prototype.trim`: drop leading and trailing whitespace. -/
def trimStr (s : String) : String :=
  String.mk (((s.toList.dropWhile isJsSpace).reverse.dropWhile isJsSpace).reverse)

/-- `occursIn pat l` holds when `pat` occurs contiguously inside `l`; this is
the substring test behind `String.prototype.includes`. -/
def occursIn (pat : List Char) : List Char → Bool
  | [] => pat.isEmpty
  | c :: rest => pat.isPrefixOf (c :: rest) || occursIn pat rest

/-- Model of `haystack.includes(pat)` on JavaScript strings. -/
def containsStr (haystack pat : String) : Bool :=
  occursIn pat.toList haystack.toList

/-- `STOP_WORDS` from the route (`route.ts` lines 64–109). -/
def STOP_WORDS : List String :=
  ["the", "a", "an", "and", "or", "but", "if", "in", "on", "for", "with",
   "of", "to", "by", "from", "about", "is", "are", "was", "were", "be",
   "this", "that", "those", "these", "you", "your", "into", "how", "what",
   "why", "when", "where", "can", "should", "will", "new", "latest", "best",
   "top", "2024", "2025", "video", "official"]

/-- Normalisation step of `tokenize`: characters outside `[a-z0-9\s]` are
replaced by a space, everything else is kept. -/
def normalizeChar (c : Char) : Char :=
  if isTokenChar c then c else if isJsSpace c then c else ' '

/-- Split a character list at whitespace, keeping (possibly empty) chunks;
`acc` is the current chunk, reversed.  This models `split(/\s+/)` up to empty
chunks, which the subsequent filter removes in both semantics. -/
def wordsAux : List Char → List Char → List (List Char)
  | [], acc => [acc.reverse]
  | c :: cs, acc =>
    if isJsSpace c then acc.reverse :: wordsAux cs [] else wordsAux cs (c :: acc)

/-- The whitespace-separated chunks of the lower-cased, normalised text. -/
def rawWords (text : String) : List String :=
  (wordsAux ((text.toList.map Char.toLower).map normalizeChar) []).map String.mk

/-- `tokenize` from the route (`route.ts` lines 157–162): lower-case, replace
`[^a-z0-9\s]` by spaces, split on whitespace, and keep non-empty words that
are not stop words and are longer than 2 characters. -/
def tokenize (text : String) : List String :=
  (rawWords text).filter fun w =>
    decide (w ≠ "") && !(STOP_WORDS.contains w) && decide (2 < w.length)

section TokenizeLemmas

theorem wordsAux_chars (cs : List Char) :
    ∀ acc : List Char, (∀ c ∈ cs, isTokenChar c ∨ isJsSpace c) →
      (∀ c ∈ acc, isTokenChar c) →
      ∀ w ∈ wordsAux cs acc, ∀ c ∈ w, isTokenChar c := by
  induction cs with
  | nil =>
    intro acc _ hacc w hw c hc
    simp only [wordsAux, List.mem_singleton] at hw
    subst hw
    exact hacc c (List.mem_reverse.mp hc)
  | cons d cs ih =>
    intro acc hcs hacc w hw c hc
    simp only [wordsAux] at hw
    by_cases hd : isJsSpace d
    · rw [if_pos hd] at hw
      rcases List.mem_cons.mp hw with h | h
      · subst h
        exact hacc c (List.mem_reverse.mp hc)
      · exact ih [] (fun x hx => hcs x (List.mem_cons_of_mem d hx))
          (by intro x hx; cases hx) w h c hc
    · rw [if_neg hd] at hw
      refine ih (d :: acc) (fun x hx => hcs x (List.mem_cons_of_mem d hx)) ?_ w hw c hc
      intro x hx
      rcases List.mem_cons.mp hx with h | h
      · subst h
        rcases hcs x (List.mem_cons_self x cs) with h' | h'
        · exact h'
        · exact absurd h' (by simpa using hd)
      · exact hacc x h

theorem normalized_chars (text : String) :
    ∀ c ∈ (text.toList.map Char.toLower).map normalizeChar,
      isTokenChar c ∨ isJsSpace c := by
  intro c hc
  rcases List.mem_map.mp hc with ⟨d, _, hd⟩
  subst hd
  unfold normalizeChar
  by_cases h1 : isTokenChar d
  · rw [if_pos h1]; exact Or.inl h1
  · rw [if_neg h1]
    by_cases h2 : isJsSpace d
    · rw [if_pos h2]; exact Or.inr h2
    · rw [if_neg h2]; exact Or.inr (by decide)

theorem rawWords_chars (text : String) :
    ∀ w ∈ rawWords text, ∀ c ∈ w.toList, isTokenChar c := by
  intro w hw
  rcases List.mem_map.mp hw with ⟨l, hl, hlw⟩
  subst hlw
  intro c hc
  exact wordsAux_chars _ [] (normalized_chars text) (by intro x hx; cases hx) l hl c hc

end TokenizeLemmas

/-- C3: every token returned by `tokenize` consists only of lowercase Latin
letters and digits, has length at least 3, and is not a stop word; the token
sequence is a sublist of the whitespace-split word sequence of the text (so
order is first-occurrence order and duplicates are retained, as the concrete
duplicate example shows), and the empty input yields the empty sequence. -/
theorem tokenize_spec (text : String) :
    (∀ w ∈ tokenize text,
        (∀ c ∈ w.toList, isTokenChar c = true) ∧ 3 ≤ w.length ∧ w ∉ STOP_WORDS) ∧
    (tokenize text).Sublist (rawWords text) ∧
    tokenize "" = [] ∧
    tokenize "dog cat dog" = ["dog", "cat", "dog"] := by
  refine ⟨?_, List.filter_sublist _, by decide, by decide⟩
  intro w hw
  have hmem : w ∈ rawWords text := List.mem_of_mem_filter hw
  have hpred := List.of_mem_filter hw
  simp only [Bool.and_eq_true, decide_eq_true_eq, Bool.not_eq_true'] at hpred
  refine ⟨rawWords_chars text w hmem, ?_, ?_⟩
  · omega
  · intro hcon
    have : STOP_WORDS.contains w = true := List.elem_eq_true_of_mem hcon
    rw [hpred.1.2] at this
    cases this

/-- Witness for C3 at the concrete text `"Hello, WORLD!!"`. -/
theorem tokenize_spec_witness :
    ("hello" ∈ tokenize "Hello, WORLD!!") ∧
    (∀ c ∈ "hello".toList, isTokenChar c = true) ∧
    3 ≤ "hello".length ∧ "hello" ∉ STOP_WORDS :=
  ⟨by decide, (tokenize_spec "Hello, WORLD!!").1 "hello" (by decide)⟩

/-- One `freq.set(word, (freq.get(word) ?? 0) + 1)` step on the insertion-ordered
association list that models the JavaScript `Map`. -/
def bump : List (String × Nat) → String → List (String × Nat)
  | [], w => [(w, 1)]
  | (k, c) :: rest, w =>
    if k = w then (k, c + 1) :: rest else (k, c) :: bump rest w

/-- The frequency map built by `aggregateKeywords` (`route.ts` lines 164–176),
as an insertion-ordered association list. -/
def freqList (texts : List String) : List (String × Nat) :=
  texts.foldl (fun acc text => (tokenize text).foldl bump acc) []

/-- The comparator `(a, b) => b[1] - a[1]`: sort descending by count. -/
def kwLe (a b : String × Nat) : Bool :=
  decide (b.2 ≤ a.2)

/-- The frequency entries sorted by the stable descending-count sort. -/
def sortedFreq (texts : List String) : List (String × Nat) :=
  (freqList texts).mergeSort kwLe

/-- `aggregateKeywords` from the route: sort the frequency entries descending
by count (stable sort), keep the first 10, and return the words only. -/
def aggregateKeywords (texts : List String) : List String :=
  ((sortedFreq texts).take 10).map Prod.fst

/-- All tokens of all texts, in encounter order. -/
def allTokens (texts : List String) : List String :=
  texts.flatMap tokenize

/-- Number of occurrences of the word `w` across the tokenised texts. -/
def countOf (texts : List String) (w : String) : Nat :=
  (allTokens texts).count w

/-- Count stored in an association list (`0` when the key is absent). -/
def entryCount (l : List (String × Nat)) (w : String) : Nat :=
  ((l.find? (fun p => p.1 == w)).map Prod.snd).getD 0

/-- The keys of an association list, in order. -/
def keys (l : List (String × Nat)) : List String :=
  l.map Prod.fst

section FreqLemmas

@[simp] theorem entryCount_nil (v : String) : entryCount [] v = 0 := rfl

theorem entryCount_cons (k : String) (c : Nat) (rest : List (String × Nat)) (v : String) :
    entryCount ((k, c) :: rest) v = if k = v then c else entryCount rest v := by
  by_cases h : k = v
  · simp [entryCount, List.find?_cons_of_pos, h]
  · simp [entryCount, List.find?_cons_of_neg, h]

@[simp] theorem keys_nil : keys [] = [] := rfl

@[simp] theorem keys_cons (p : String × Nat) (l : List (String × Nat)) :
    keys (p :: l) = p.1 :: keys l := rfl

theorem entryCount_bump (l : List (String × Nat)) (w v : String) :
    entryCount (bump l w) v =
      if v = w then entryCount l v + 1 else entryCount l v := by
  induction l with
  | nil =>
    by_cases h : v = w
    · subst h; simp [bump, entryCount_cons]
    · have h' : ¬w = v := fun e => h e.symm
      simp [bump, entryCount_cons, h', h]
  | cons p rest ih =>
    obtain ⟨k, c⟩ := p
    by_cases hk : k = w
    · subst hk
      by_cases hv : v = k
      · subst hv; simp [bump, entryCount_cons]
      · have : ¬k = v := fun h => hv h.symm
        simp [bump, entryCount_cons, this, hv]
    · have hbump : bump ((k, c) :: rest) w = (k, c) :: bump rest w := by
        simp [bump, hk]
      rw [hbump, entryCount_cons, entryCount_cons, ih]
      by_cases hv : k = v
      · have hvw : ¬v = w := fun e => hk (hv.trans e)
        simp [hv, hvw]
      · simp [hv]

theorem keys_bump (l : List (String × Nat)) (w : String) :
    keys (bump l w) = if w ∈ keys l then keys l else keys l ++ [w] := by
  induction l with
  | nil => simp [bump, keys]
  | cons p rest ih =>
    obtain ⟨k, c⟩ := p
    by_cases hk : k = w
    · subst hk; simp [bump]
    · have hne : ¬w = k := fun h => hk h.symm
      have hbump : bump ((k, c) :: rest) w = (k, c) :: bump rest w := by
        simp [bump, hk]
      rw [hbump, keys_cons, ih]
      by_cases hmem : w ∈ keys rest
      · rw [if_pos hmem, if_pos (by simp [hmem])]
        rfl
      · rw [if_neg hmem, if_neg (by simp [hne, hmem]), keys_cons]
        rfl

theorem entryCount_foldl (ws : List String) :
    ∀ l : List (String × Nat), ∀ v : String,
      entryCount (ws.foldl bump l) v = entryCount l v + ws.count v := by
  induction ws with
  | nil => intro l v; simp
  | cons w ws ih =>
    intro l v
    rw [List.foldl_cons, ih, entryCount_bump]
    by_cases h : v = w
    · subst h; simp [List.count_cons]; omega
    · have : ¬(w == v) = true := by simpa using fun h' : w = v => h h'.symm
      simp [List.count_cons, this, h]

theorem keys_foldl_mem (ws : List String) :
    ∀ l : List (String × Nat), ∀ v : String,
      (v ∈ keys (ws.foldl bump l) ↔ v ∈ keys l ∨ v ∈ ws) := by
  induction ws with
  | nil => intro l v; simp
  | cons w ws ih =>
    intro l v
    rw [List.foldl_cons, ih, keys_bump]
    by_cases h : w ∈ keys l
    · rw [if_pos h]
      constructor
      · rintro (hv | hv)
        · exact Or.inl hv
        · exact Or.inr (List.mem_cons_of_mem w hv)
      · rintro (hv | hv)
        · exact Or.inl hv
        · rcases List.mem_cons.mp hv with hv | hv
          · subst hv; exact Or.inl h
          · exact Or.inr hv
    · rw [if_neg h]
      simp only [List.mem_append, List.mem_singleton, List.mem_cons]
      tauto

theorem keys_foldl_nodup (ws : List String) :
    ∀ l : List (String × Nat), (keys l).Nodup → (keys (ws.foldl bump l)).Nodup := by
  induction ws with
  | nil => intro l h; simpa using h
  | cons w ws ih =>
    intro l h
    rw [List.foldl_cons]
    refine ih (bump l w) ?_
    rw [keys_bump]
    by_cases hmem : w ∈ keys l
    · rwa [if_pos hmem]
    · rw [if_neg hmem]
      simpa [List.nodup_append] using ⟨h, hmem⟩

theorem mem_entryCount (l : List (String × Nat)) :
    (keys l).Nodup → ∀ p ∈ l, entryCount l p.1 = p.2 := by
  induction l with
  | nil => intro _ p hp; cases hp
  | cons q rest ih =>
    intro hnd p hp
    obtain ⟨k, c⟩ := q
    rw [keys_cons] at hnd
    have hnd' := List.nodup_cons.mp hnd
    rcases List.mem_cons.mp hp with h | h
    · subst h; simp [entryCount_cons]
    · have hpk : p.1 ∈ keys rest := List.mem_map_of_mem Prod.fst h
      have hk : ¬k = p.1 := fun he => hnd'.1 (he ▸ hpk)
      rw [entryCount_cons, if_neg hk]
      exact ih hnd'.2 p h

theorem key_mem_pair (l : List (String × Nat)) (w : String) :
    w ∈ keys l → (w, entryCount l w) ∈ l := by
  induction l with
  | nil => intro h; cases h
  | cons q rest ih =>
    intro hmem
    obtain ⟨k, c⟩ := q
    by_cases hk : k = w
    · subst hk; simp [entryCount_cons]
    · have hw : w ∈ keys rest := by
        rcases List.mem_cons.mp (by simpa using hmem) with h | h
        · exact absurd h.symm hk
        · exact h
      rw [entryCount_cons, if_neg hk]
      exact List.mem_cons_of_mem _ (ih hw)

theorem freqList_eq_foldl (texts : List String) :
    freqList texts = (allTokens texts).foldl bump [] := by
  suffices h : ∀ (ts : List String) (acc : List (String × Nat)),
      ts.foldl (fun a text => (tokenize text).foldl bump a) acc =
        (ts.flatMap tokenize).foldl bump acc by
    simpa [freqList, allTokens] using h texts []
  intro ts
  induction ts with
  | nil => intro acc; simp
  | cons t ts ih => intro acc; simp [List.foldl_append, ih]

theorem freqList_keys_nodup (texts : List String) : (keys (freqList texts)).Nodup := by
  rw [freqList_eq_foldl]
  exact keys_foldl_nodup _ [] (by simp)

theorem freqList_entry (texts : List String) :
    ∀ p ∈ freqList texts, p.2 = countOf texts p.1 ∧ p.1 ∈ allTokens texts := by
  intro p hp
  have hnd := freqList_keys_nodup texts
  have h1 : entryCount (freqList texts) p.1 = p.2 := mem_entryCount _ hnd p hp
  have h2 : entryCount (freqList texts) p.1 = countOf texts p.1 := by
    rw [freqList_eq_foldl, entryCount_foldl]
    simp [countOf]
  have hkey : p.1 ∈ keys (freqList texts) := List.mem_map_of_mem Prod.fst hp
  have h3 : p.1 ∈ allTokens texts := by
    rw [freqList_eq_foldl] at hkey
    rcases (keys_foldl_mem _ [] p.1).mp hkey with h | h
    · simp at h
    · exact h
  exact ⟨h1 ▸ h2, h3⟩

theorem freqList_key_of_token (texts : List String) (w : String) :
    w ∈ allTokens texts → (w, countOf texts w) ∈ freqList texts := by
  intro hw
  have hkey : w ∈ keys (freqList texts) := by
    rw [freqList_eq_foldl]
    exact (keys_foldl_mem _ [] w).mpr (Or.inr hw)
  have hpair := key_mem_pair (freqList texts) w hkey
  have hec : entryCount (freqList texts) w = countOf texts w := by
    rw [freqList_eq_foldl, entryCount_foldl]
    simp [countOf]
  rwa [hec] at hpair

theorem kwLe_trans : ∀ a b c : String × Nat,
    kwLe a b = true → kwLe b c = true → kwLe a c = true := by
  intro a b c hab hbc
  simp only [kwLe, decide_eq_true_eq] at *
  omega

theorem kwLe_total : ∀ a b : String × Nat, (kwLe a b || kwLe b a) = true := by
  intro a b
  simp only [kwLe, Bool.or_eq_true, decide_eq_true_eq]
  omega

end FreqLemmas

theorem sortedFreq_sorted (texts : List String) :
    (sortedFreq texts).Pairwise (fun a b => kwLe a b = true) := by
  unfold sortedFreq
  exact List.sorted_mergeSort kwLe_trans kwLe_total (freqList texts)

theorem sortedFreq_perm (texts : List String) :
    (sortedFreq texts).Perm (freqList texts) :=
  List.mergeSort_perm (freqList texts) kwLe

/-- C4: `aggregateKeywords` returns at most 10 words, ordered by descending
token frequency; the underlying sort is stable (frequency ties keep the
first-encountered entry order); and a word whose frequency strictly dominates
every other word is always placed first. -/
theorem aggregateKeywords_spec (texts : List String) :
    (aggregateKeywords texts).length ≤ 10 ∧
    (aggregateKeywords texts).Pairwise
      (fun a b => countOf texts b ≤ countOf texts a) ∧
    (∀ x y : String × Nat, [x, y].Sublist (freqList texts) → x.2 = y.2 →
        [x, y].Sublist (sortedFreq texts)) ∧
    (∀ w ∈ allTokens texts,
        (∀ v ∈ allTokens texts, v ≠ w → countOf texts v < countOf texts w) →
        (aggregateKeywords texts).head? = some w) := by
  have hsorted := sortedFreq_sorted texts
  have hperm := sortedFreq_perm texts
  refine ⟨?_, ?_, ?_, ?_⟩
  · calc (aggregateKeywords texts).length
        = ((sortedFreq texts).take 10).length := List.length_map _ _
      _ ≤ 10 := List.length_take_le 10 _
  · rw [aggregateKeywords, List.pairwise_map]
    have htake : ((sortedFreq texts).take 10).Pairwise (fun a b => kwLe a b = true) :=
      List.Pairwise.sublist (List.take_sublist 10 _) hsorted
    refine htake.imp_of_mem ?_
    intro a b ha hb hle
    have haf : a ∈ freqList texts :=
      hperm.mem_iff.mp (List.Sublist.mem ha (List.take_sublist 10 _))
    have hbf : b ∈ freqList texts :=
      hperm.mem_iff.mp (List.Sublist.mem hb (List.take_sublist 10 _))
    have ha2 := (freqList_entry texts a haf).1
    have hb2 := (freqList_entry texts b hbf).1
    simp only [kwLe, decide_eq_true_eq] at hle
    omega
  · intro x y hsub hxy
    unfold sortedFreq
    refine List.mergeSort_stable_pair kwLe_trans kwLe_total ?_ hsub
    simp [kwLe, hxy]
  · intro w hw hmax
    have hpair : (w, countOf texts w) ∈ sortedFreq texts :=
      hperm.mem_iff.mpr (freqList_key_of_token texts w hw)
    obtain ⟨h, rest, heq⟩ : ∃ h rest, sortedFreq texts = h :: rest := by
      cases hsf : sortedFreq texts with
      | nil => rw [hsf] at hpair; cases hpair
      | cons a l => exact ⟨a, l, rfl⟩
    have hhead_mem : h ∈ freqList texts :=
      hperm.mem_iff.mp (heq ▸ List.mem_cons_self h rest)
    have hh := freqList_entry texts h hhead_mem
    have hagg : (aggregateKeywords texts).head? = some h.1 := by
      rw [aggregateKeywords, heq]
      simp [List.take_succ_cons]
    rw [hagg]
    by_contra hne
    have hne' : h.1 ≠ w := by
      intro he
      exact hne (by rw [he])
    have hlt := hmax h.1 hh.2 hne'
    have hwrest : (w, countOf texts w) ∈ rest := by
      rcases List.mem_cons.mp (heq ▸ hpair) with he | hr
      · exact absurd (congrArg Prod.fst he).symm hne'
      · exact hr
    have hsorted' := heq ▸ hsorted
    have hle := (List.pairwise_cons.mp hsorted').1 _ hwrest
    simp only [kwLe, decide_eq_true_eq] at hle
    omega

/-- Witness for C4: with texts `["apple banana apple", "banana apple"]` the
word `"apple"` strictly dominates and is placed first; in `["aaa bbb"]` the
tied entries keep their first-encountered order through the sort. -/
theorem aggregateKeywords_spec_witness :
    (aggregateKeywords ["apple banana apple", "banana apple"]).head? = some "apple" ∧
    [("aaa", 1), ("bbb", 1)].Sublist (sortedFreq ["aaa bbb"]) := by
  constructor
  · exact (aggregateKeywords_spec _).2.2.2 "apple" (by decide) (by decide)
  · refine (aggregateKeywords_spec ["aaa bbb"]).2.2.1 _ _ ?_ rfl
    have h : freqList ["aaa bbb"] = [("aaa", 1), ("bbb", 1)] := by decide
    rw [h]

/-- `timeUnitToMinutes` from the route (`route.ts` lines 111–130); minutes are
exact rationals (`second` maps to `1/60`). -/
def timeUnitToMinutes : String → ℚ
  | "second" => 1 / 60
  | "minute" => 1
  | "hour" => 60
  | "day" => 60 * 24
  | "week" => 60 * 24 * 7
  | "month" => 60 * 24 * 30
  | "year" => 60 * 24 * 365
  | _ => 60 * 24

/-- The alternation `second|minute|hour|day|week|month|year` of the age
regex, in source order (no alternative is a prefix of another). -/
def unitNames : List String :=
  ["second", "minute", "hour", "day", "week", "month", "year"]

/-- `Number.parseInt` on a run of ASCII digits. -/
def digitsToNat (ds : List Char) : Nat :=
  ds.foldl (fun n c => n * 10 + (c.toNat - '0'.toNat)) 0

/-- The unit alternative matching at the start of `cs`, if any. -/
def matchUnitAt (cs : List Char) : Option String :=
  unitNames.find? fun u => u.toList.isPrefixOf cs

/-- Leftmost match of `/(\d+)\s+(second|minute|hour|day|week|month|year)/`:
scan start positions left to right; at a digit, the greedy digit run must be
followed by at least one whitespace character and then a unit word.  (Giving
back digits can never help the match, since `\s` accepts no digit, so the
backtracking regex semantics coincide with this scan.) -/
def findAgeMatch : List Char → Option (Nat × String)
  | [] => none
  | c :: cs =>
    if isDigitChar c then
      let ds := (c :: cs).takeWhile isDigitChar
      let rest := (c :: cs).dropWhile isDigitChar
      let ws := rest.takeWhile isJsSpace
      let rest2 := rest.dropWhile isJsSpace
      if ws.isEmpty then findAgeMatch cs
      else
        match matchUnitAt rest2 with
        | some u => some (digitsToNat ds, u)
        | none => findAgeMatch cs
    else findAgeMatch cs

/-- Leftmost match of `/streamed\s+(\d+)\s+(second|...|year)/` (the branch of
`parseAgeMinutes` guarded by `includes("streamed") || includes("premiered")`). -/
def findStreamedMatch : List Char → Option (Nat × String)
  | [] => none
  | c :: cs =>
    if "streamed".toList.isPrefixOf (c :: cs) then
      let rest := (c :: cs).drop 8
      let ws1 := rest.takeWhile isJsSpace
      let r1 := rest.dropWhile isJsSpace
      let ds := r1.takeWhile isDigitChar
      let r2 := r1.dropWhile isDigitChar
      let ws2 := r2.takeWhile isJsSpace
      let r3 := r2.dropWhile isJsSpace
      if ws1.isEmpty || ds.isEmpty || ws2.isEmpty then findStreamedMatch cs
      else
        match matchUnitAt r3 with
        | some u => some (digitsToNat ds, u)
        | none => findStreamedMatch cs
    else findStreamedMatch cs

/-- `parseAgeMinutes` from the route (`route.ts` lines 132–155): parse the
free-text age descriptor into minutes, defaulting to one year. -/
def parseAgeMinutes : Option String → ℚ
  | none => 60 * 24 * 365
  | some ago =>
    let normalized := toLowerStr ago
    match findAgeMatch normalized.toList with
    | some vu => (vu.1 : ℚ) * timeUnitToMinutes vu.2
    | none =>
      if containsStr normalized "streamed" || containsStr normalized "premiered" then
        match findStreamedMatch normalized.toList with
        | some vu => (vu.1 : ℚ) * timeUnitToMinutes vu.2
        | none => 60 * 24 * 365
      else 60 * 24 * 365

/-- C6: `parseAgeMinutes` uses the unit multipliers second = 1/60, minute = 1,
hour = 60, day = 1440, week = 10080, month = 43200, year = 525600; a missing
descriptor or one matched by neither regex yields exactly 525600 minutes; a
matched descriptor yields the captured value times its unit multiplier; and
`"streamed 3 days ago"` parses to 4320 minutes, not the 1-year fallback. -/
theorem parseAgeMinutes_spec :
    (timeUnitToMinutes "second" = 1 / 60 ∧ timeUnitToMinutes "minute" = 1 ∧
     timeUnitToMinutes "hour" = 60 ∧ timeUnitToMinutes "day" = 1440 ∧
     timeUnitToMinutes "week" = 10080 ∧ timeUnitToMinutes "month" = 43200 ∧
     timeUnitToMinutes "year" = 525600) ∧
    parseAgeMinutes none = 525600 ∧
    (∀ s : String, findAgeMatch (toLowerStr s).toList = none →
        findStreamedMatch (toLowerStr s).toList = none →
        parseAgeMinutes (some s) = 525600) ∧
    (∀ (s : String) (n : Nat) (u : String),
        findAgeMatch (toLowerStr s).toList = some (n, u) →
        parseAgeMinutes (some s) = (n : ℚ) * timeUnitToMinutes u) ∧
    parseAgeMinutes (some "streamed 3 days ago") = 4320 := by
  refine ⟨by norm_num [timeUnitToMinutes], by norm_num [parseAgeMinutes], ?_, ?_, ?_⟩
  · intro s h1 h2
    simp only [parseAgeMinutes]
    rw [h1]
    by_cases hc : (containsStr (toLowerStr s) "streamed" || containsStr (toLowerStr s) "premiered") = true
    · simp only [hc, if_true, h2]
      norm_num
    · simp only [Bool.not_eq_true] at hc
      simp only [hc, if_false]
      norm_num
  · intro s n u h
    simp only [parseAgeMinutes]
    rw [h]
  · have h : findAgeMatch (toLowerStr "streamed 3 days ago").toList = some (3, "day") := by
      decide
    simp only [parseAgeMinutes]
    rw [h]
    norm_num [timeUnitToMinutes]

/-- Witness for C6: the descriptor `"uploaded yesterday"` matches neither
regex and falls back to 525600; `"2 weeks ago"` parses via the first regex. -/
theorem parseAgeMinutes_spec_witness :
    parseAgeMinutes (some "uploaded yesterday") = 525600 ∧
    parseAgeMinutes (some "2 weeks ago") = (2 : ℚ) * timeUnitToMinutes "week" :=
  ⟨parseAgeMinutes_spec.2.2.1 "uploaded yesterday" (by decide) (by decide),
   parseAgeMinutes_spec.2.2.2.1 "2 weeks ago" 2 "week" (by decide)⟩

/-- `YtAuthor` from `types/yt-search.d.ts`. -/
structure YtAuthor where
  name : Option String
  url : Option String
deriving DecidableEq

/-- `VideoSearchResult` from `types/yt-search.d.ts` (the fields the route
reads; `duration`, `seconds`, `timestamp` and the `type` tag are never used). -/
structure VideoSearchResult where
  videoId : Option String
  url : String
  title : String
  description : Option String
  image : Option String
  thumbnail : Option String
  ago : Option String
  views : Option Nat
  author : Option YtAuthor
deriving DecidableEq

/-- The view-score component of `scoreVideo`: `log10(views + 1) / 6`, with
absent view counts defaulting to 0 (`video.views ?? 0`). -/
noncomputable def viewScore (views : Option Nat) : ℝ :=
  Real.logb 10 ((views.getD 0 : ℝ) + 1) / 6

/-- The age-score component of `scoreVideo`:
`exp(-ageMinutes / (60 * 24 * 21))`. -/
noncomputable def ageScore (ago : Option String) : ℝ :=
  Real.exp (-(parseAgeMinutes ago : ℝ) / (60 * 24 * 21))

/-- `scoreVideo` from the route (`route.ts` lines 376–392): blend of view
score, age score and keyword relevance.  The keyword match lower-cases the
candidate text (`title + " " + (description ?? "")`) and tests each keyword
verbatim with `includes`. -/
noncomputable def scoreVideo (video : VideoSearchResult) (keywords : List String) :
    ℝ × ℝ :=
  let text := toLowerStr (video.title ++ " " ++ video.description.getD "")
  let matchCount := keywords.countP fun keyword => containsStr text keyword
  let relevance : ℝ :=
    if keywords.length > 0 then (matchCount : ℝ) / keywords.length else 0.3
  (viewScore video.views * 0.6 + ageScore video.ago * 0.3 + relevance * 0.4,
   relevance)

/-- The relevance described by the claim: fraction of keywords occurring as a
case-insensitive substring of `title + " " + description` (both sides
lower-cased), with the neutral 0.3 default for an empty keyword list. -/
noncomputable def relevanceClaim (video : VideoSearchResult) (keywords : List String) : ℝ :=
  if keywords = [] then 0.3
  else
    (keywords.countP (fun keyword =>
        containsStr (toLowerStr (video.title ++ " " ++ video.description.getD ""))
          (toLowerStr keyword)) : ℝ) / keywords.length

/-- The score formula asserted by the claim, built on `relevanceClaim`. -/
noncomputable def scoreClaim (video : VideoSearchResult) (keywords : List String) : ℝ :=
  0.6 * viewScore video.views + 0.3 * ageScore video.ago +
    0.4 * relevanceClaim video keywords

/-- The relevance the code actually computes: fraction of keywords occurring
verbatim as a substring of the lower-cased `title + " " + description` (so
matching is case-insensitive exactly when the keyword is lower-case, which
all tokenizer-produced keywords are), with the neutral 0.3 default for an
empty keyword list. -/
noncomputable def relevanceAmended (video : VideoSearchResult) (keywords : List String) : ℝ :=
  if keywords = [] then 0.3
  else
    (keywords.countP (fun keyword =>
        containsStr (toLowerStr (video.title ++ " " ++ video.description.getD ""))
          keyword) : ℝ) / keywords.length

/-- A candidate video whose title is upper-case, used to separate verbatim
keyword matching from case-insensitive keyword matching. -/
def cexVideo : VideoSearchResult :=
  { videoId := some "x", url := "https://example.test/x", title := "AI",
    description := some "", image := none, thumbnail := none, ago := none,
    views := some 0, author := none }

/-- Counterexample for C1: with the upper-case keyword `"AI"` and a video
titled `"AI"`, the keyword occurs case-insensitively in the text, but the code
lower-cases only the text and matches the keyword verbatim, so its relevance
contribution is 0 where the formula of the claim awards 1. -/
theorem scoreVideo_claim_counterexample :
    (scoreVideo cexVideo ["AI"]).1 ≠ scoreClaim cexVideo ["AI"] := by
  have h1 : containsStr (toLowerStr (cexVideo.title ++ " " ++ cexVideo.description.getD ""))
      "AI" = false := by decide
  have h2 : containsStr (toLowerStr (cexVideo.title ++ " " ++ cexVideo.description.getD ""))
      (toLowerStr "AI") = true := by decide
  simp only [scoreVideo, scoreClaim, relevanceClaim, List.countP_cons, List.countP_nil,
    h1, h2]
  norm_num
  intro h
  linarith

/-- C1 (amended): `scoreVideo` returns
`0.6 * viewScore + 0.3 * ageScore + 0.4 * relevance`, where `viewScore` is
`log10(views + 1)/6` with absent views defaulting to 0, `ageScore` is
`exp(-ageMinutes / (21 days in minutes))`, and `relevance` is the fraction of
keywords occurring verbatim as a substring of the lower-cased
`title + " " + description` (case-insensitive matching exactly for lower-case
keywords, which is what `tokenize` always supplies); an empty keyword list
yields relevance exactly 0.3. -/
theorem scoreVideo_amended (video : VideoSearchResult) (keywords : List String) :
    (scoreVideo video keywords).1 =
      0.6 * viewScore video.views + 0.3 * ageScore video.ago +
        0.4 * relevanceAmended video keywords ∧
    (scoreVideo video keywords).2 = relevanceAmended video keywords ∧
    (keywords = [] → (scoreVideo video keywords).2 = 0.3) := by
  have hrel : (scoreVideo video keywords).2 = relevanceAmended video keywords := by
    simp only [scoreVideo, relevanceAmended]
    by_cases h : keywords = []
    · subst h; simp
    · have hlen : 0 < keywords.length := List.length_pos.mpr h
      simp [h, hlen]
  refine ⟨?_, hrel, fun h => by rw [hrel]; simp [relevanceAmended, h]⟩
  have hfst : (scoreVideo video keywords).1 =
      viewScore video.views * 0.6 + ageScore video.ago * 0.3 +
        (scoreVideo video keywords).2 * 0.4 := rfl
  rw [hfst, hrel]
  ring

/-- Witness for C1 (amended) at the empty keyword list. -/
theorem scoreVideo_amended_witness :
    (scoreVideo cexVideo []).2 = 0.3 :=
  (scoreVideo_amended cexVideo []).2.2 rfl

/-- C7: `viewScore` is monotone in the view count (absent views count as 0),
and `ageScore` is antitone in the parsed age: a strictly larger parsed age
never yields a higher age score. -/
theorem score_monotone :
    (∀ v1 v2 : Option Nat, v1.getD 0 < v2.getD 0 → viewScore v1 ≤ viewScore v2) ∧
    (∀ a1 a2 : Option String, parseAgeMinutes a1 < parseAgeMinutes a2 →
        ageScore a2 ≤ ageScore a1) := by
  constructor
  · intro v1 v2 h
    unfold viewScore
    have h1 : (0 : ℝ) < (v1.getD 0 : ℝ) + 1 := by positivity
    have hle : ((v1.getD 0 : Nat) : ℝ) ≤ ((v2.getD 0 : Nat) : ℝ) := by
      exact_mod_cast h.le
    have h2 : ((v1.getD 0 : ℝ) + 1) ≤ ((v2.getD 0 : ℝ) + 1) := by linarith
    have := Real.logb_le_logb_of_le (by norm_num : (1 : ℝ) < 10) h1 h2
    linarith
  · intro a1 a2 h
    unfold ageScore
    rw [Real.exp_le_exp]
    have hq : ((parseAgeMinutes a1 : ℚ) : ℝ) ≤ ((parseAgeMinutes a2 : ℚ) : ℝ) := by
      exact_mod_cast h.le
    have hT : (0 : ℝ) < 60 * 24 * 21 := by norm_num
    exact (div_le_div_right hT).mpr (by linarith)

/-- Witness for C7: 5 versus 9 views, and the parsed ages of
`"1 hour ago"` (60 minutes) versus `"3 days ago"` (4320 minutes). -/
theorem score_monotone_witness :
    viewScore (some 5) ≤ viewScore (some 9) ∧
    ageScore (some "3 days ago") ≤ ageScore (some "1 hour ago") := by
  constructor
  · exact score_monotone.1 (some 5) (some 9) (by decide)
  · refine score_monotone.2 (some "1 hour ago") (some "3 days ago") ?_
    have h1 : findAgeMatch (toLowerStr "1 hour ago").toList = some (1, "hour") := by decide
    have h2 : findAgeMatch (toLowerStr "3 days ago").toList = some (3, "day") := by decide
    simp only [parseAgeMinutes]
    rw [h1, h2]
    norm_num [timeUnitToMinutes]

/-- Whether the route keeps a candidate in `dedupeVideos`: the JavaScript
guard `if (!video.videoId) continue` skips a missing or empty identifier. -/
def hasUsableId (v : VideoSearchResult) : Bool :=
  match v.videoId with
  | none => false
  | some i => decide (i ≠ "")

/-- Loop of `dedupeVideos` (`route.ts` lines 394–403): `seen` holds the keys
already inserted in the `Map`; output order is `Map` insertion order. -/
def dedupeAux : List VideoSearchResult → List String → List VideoSearchResult
  | [], _ => []
  | v :: rest, seen =>
    match v.videoId with
    | none => dedupeAux rest seen
    | some i =>
      if i = "" then dedupeAux rest seen
      else if i ∈ seen then dedupeAux rest seen
      else v :: dedupeAux rest (i :: seen)

/-- `dedupeVideos` from the route: keep the first candidate for each
non-empty video identifier, in first-encounter order. -/
def dedupeVideos (videos : List VideoSearchResult) : List VideoSearchResult :=
  dedupeAux videos []

section DedupeLemmas

theorem dedupeAux_cons_none (w : VideoSearchResult) (rest : List VideoSearchResult)
    (seen : List String) (hw : w.videoId = none) :
    dedupeAux (w :: rest) seen = dedupeAux rest seen := by
  simp [dedupeAux, hw]

theorem dedupeAux_cons_empty (w : VideoSearchResult) (rest : List VideoSearchResult)
    (seen : List String) (hw : w.videoId = some "") :
    dedupeAux (w :: rest) seen = dedupeAux rest seen := by
  simp [dedupeAux, hw]

theorem dedupeAux_cons_seen (w : VideoSearchResult) (rest : List VideoSearchResult)
    (seen : List String) (j : String) (hw : w.videoId = some j) (hj : j ≠ "")
    (hseen : j ∈ seen) :
    dedupeAux (w :: rest) seen = dedupeAux rest seen := by
  simp [dedupeAux, hw, hj, hseen]

theorem dedupeAux_cons_new (w : VideoSearchResult) (rest : List VideoSearchResult)
    (seen : List String) (j : String) (hw : w.videoId = some j) (hj : j ≠ "")
    (hseen : j ∉ seen) :
    dedupeAux (w :: rest) seen = w :: dedupeAux rest (j :: seen) := by
  simp [dedupeAux, hw, hj, hseen]

theorem dedupeAux_first (videos : List VideoSearchResult) :
    ∀ seen : List String, ∀ v ∈ dedupeAux videos seen, ∃ i : String,
      v.videoId = some i ∧ i ≠ "" ∧ i ∉ seen ∧
      videos.find? (fun u => u.videoId == some i) = some v := by
  induction videos with
  | nil => intro seen v hv; cases hv
  | cons w rest ih =>
    intro seen v hv
    cases hw : w.videoId with
    | none =>
      rw [dedupeAux_cons_none w rest seen hw] at hv
      obtain ⟨i, hvi, hine, hiseen, hfind⟩ := ih seen v hv
      refine ⟨i, hvi, hine, hiseen, ?_⟩
      rw [List.find?_cons_of_neg, hfind]
      simp [hw]
    | some j =>
      by_cases hj : j = ""
      · subst hj
        rw [dedupeAux_cons_empty w rest seen hw] at hv
        obtain ⟨i, hvi, hine, hiseen, hfind⟩ := ih seen v hv
        refine ⟨i, hvi, hine, hiseen, ?_⟩
        rw [List.find?_cons_of_neg, hfind]
        simp [hw]
        exact fun he => hine he.symm
      · by_cases hseen : j ∈ seen
        · rw [dedupeAux_cons_seen w rest seen j hw hj hseen] at hv
          obtain ⟨i, hvi, hine, hiseen, hfind⟩ := ih seen v hv
          refine ⟨i, hvi, hine, hiseen, ?_⟩
          rw [List.find?_cons_of_neg, hfind]
          simp [hw]
          intro he
          exact hiseen (he ▸ hseen)
        · rw [dedupeAux_cons_new w rest seen j hw hj hseen] at hv
          rcases List.mem_cons.mp hv with he | hmem
          · subst he
            refine ⟨j, hw, hj, hseen, ?_⟩
            rw [List.find?_cons_of_pos]
            simp [hw]
          · obtain ⟨i, hvi, hine, hiseen, hfind⟩ := ih (j :: seen) v hmem
            have hij : i ≠ j := fun he => hiseen (he ▸ List.mem_cons_self j seen)
            refine ⟨i, hvi, hine, fun hi => hiseen (List.mem_cons_of_mem j hi), ?_⟩
            rw [List.find?_cons_of_neg, hfind]
            simp [hw]
            exact fun he => hij he.symm

theorem dedupeAux_ids_nodup (videos : List VideoSearchResult) :
    ∀ seen : List String,
      ((dedupeAux videos seen).map VideoSearchResult.videoId).Nodup ∧
      (∀ v ∈ dedupeAux videos seen, ∀ i : String, v.videoId = some i → i ∉ seen) := by
  induction videos with
  | nil => intro seen; exact ⟨List.nodup_nil, by intro v hv; cases hv⟩
  | cons w rest ih =>
    intro seen
    cases hw : w.videoId with
    | none => rw [dedupeAux_cons_none w rest seen hw]; exact ih seen
    | some j =>
      by_cases hj : j = ""
      · subst hj
        rw [dedupeAux_cons_empty w rest seen hw]
        exact ih seen
      · by_cases hseen : j ∈ seen
        · rw [dedupeAux_cons_seen w rest seen j hw hj hseen]; exact ih seen
        · rw [dedupeAux_cons_new w rest seen j hw hj hseen]
          obtain ⟨hnodup, hnotin⟩ := ih (j :: seen)
          constructor
          · rw [List.map_cons, List.nodup_cons]
            refine ⟨?_, hnodup⟩
            intro hmem
            rcases List.mem_map.mp hmem with ⟨u, hu, huid⟩
            have := hnotin u hu j (by rw [huid, hw])
            exact this (List.mem_cons_self j seen)
          · intro v hv i hvi
            rcases List.mem_cons.mp hv with he | hmem
            · subst he
              rw [hw] at hvi
              injection hvi with he'
              exact he' ▸ hseen
            · have := hnotin v hmem i hvi
              exact fun hi => this (List.mem_cons_of_mem j hi)

theorem dedupeAux_complete (videos : List VideoSearchResult) :
    ∀ seen : List String, ∀ i : String, i ≠ "" → i ∉ seen →
      (∃ v ∈ videos, v.videoId = some i) →
      ∃ v ∈ dedupeAux videos seen, v.videoId = some i := by
  induction videos with
  | nil =>
    intro seen i _ _ h
    obtain ⟨v, hv, _⟩ := h
    cases hv
  | cons w rest ih =>
    intro seen i hine hiseen h
    cases hw : w.videoId with
    | none =>
      rw [dedupeAux_cons_none w rest seen hw]
      obtain ⟨v, hv, hvi⟩ := h
      rcases List.mem_cons.mp hv with he | hmem
      · subst he; rw [hw] at hvi; cases hvi
      · exact ih seen i hine hiseen ⟨v, hmem, hvi⟩
    | some j =>
      by_cases hj : j = ""
      · subst hj
        rw [dedupeAux_cons_empty w rest seen hw]
        obtain ⟨v, hv, hvi⟩ := h
        rcases List.mem_cons.mp hv with he | hmem
        · subst he
          rw [hw] at hvi
          injection hvi with he'
          exact absurd he'.symm hine
        · exact ih seen i hine hiseen ⟨v, hmem, hvi⟩
      · by_cases hseen : j ∈ seen
        · rw [dedupeAux_cons_seen w rest seen j hw hj hseen]
          obtain ⟨v, hv, hvi⟩ := h
          rcases List.mem_cons.mp hv with he | hmem
          · subst he
            rw [hw] at hvi
            injection hvi with he'
            exact absurd (he' ▸ hseen) hiseen
          · exact ih seen i hine hiseen ⟨v, hmem, hvi⟩
        · rw [dedupeAux_cons_new w rest seen j hw hj hseen]
          by_cases hij : i = j
          · exact ⟨w, List.mem_cons_self w _, by rw [hw, hij]⟩
          · obtain ⟨v, hv, hvi⟩ := h
            rcases List.mem_cons.mp hv with he | hmem
            · subst he
              rw [hw] at hvi
              injection hvi with he'
              exact absurd he'.symm hij
            · have hnotin : i ∉ j :: seen := by
                intro hi
                rcases List.mem_cons.mp hi with he | hmem'
                · exact hij he
                · exact hiseen hmem'
              obtain ⟨u, hu, hui⟩ := ih (j :: seen) i hine hnotin ⟨v, hmem, hvi⟩
              exact ⟨u, List.mem_cons_of_mem w hu, hui⟩

end DedupeLemmas

/-- C5: `dedupeVideos` keeps each non-empty identifier exactly once (the
mapped identifier list has no duplicates and every identifier present in the
input survives), and the record retained for an identifier is the
first-encountered instance with that identifier. -/
theorem dedupeVideos_spec (videos : List VideoSearchResult) :
    ((dedupeVideos videos).map VideoSearchResult.videoId).Nodup ∧
    (∀ v ∈ dedupeVideos videos, ∃ i : String, v.videoId = some i ∧ i ≠ "" ∧
        videos.find? (fun u => u.videoId == some i) = some v) ∧
    (∀ i : String, i ≠ "" → (∃ v ∈ videos, v.videoId = some i) →
        ∃ v ∈ dedupeVideos videos, v.videoId = some i) := by
  refine ⟨(dedupeAux_ids_nodup videos []).1, ?_, ?_⟩
  · intro v hv
    obtain ⟨i, hvi, hine, _, hfind⟩ := dedupeAux_first videos [] v hv
    exact ⟨i, hvi, hine, hfind⟩
  · intro i hine h
    exact dedupeAux_complete videos [] i hine (by simp) h

/-- Witness for C5: a concrete list with a duplicated identifier keeps the
first-encountered record. -/
theorem dedupeVideos_spec_witness :
    ∃ i : String, cexVideo.videoId = some i ∧ i ≠ "" ∧
      [cexVideo, { cexVideo with title := "second copy" }].find?
        (fun u => u.videoId == some i) = some cexVideo :=
  (dedupeVideos_spec [cexVideo, { cexVideo with title := "second copy" }]).2.1
    cexVideo (by decide)

/-- The view-count label of `buildHighlights`.  The float renderings
`(views/1e6).toFixed(1)` and `Math.round(views/1000)` are modelled by exact
rounding on naturals, and `toLocaleString` by the plain decimal rendering
(locale separators omitted); no verified property inspects these strings. -/
def viewLabel (views : Nat) : String :=
  if views > 1000000 then
    toString ((views + 50000) / 100000 / 10) ++ "." ++
      toString ((views + 50000) / 100000 % 10) ++ "M views"
  else if views > 10000 then
    toString ((views + 500) / 1000) ++ "k views"
  else
    toString views ++ " views"

/-- `buildHighlights` from the route (`route.ts` lines 178–203). -/
def buildHighlights (video : VideoSearchResult) (keywords : List String) :
    List String :=
  (((keywords.take 5).filter fun keyword =>
      containsStr (toLowerStr video.title) keyword).map
    fun keyword => "Focus on " ++ keyword) ++
  (if video.views.getD 0 ≠ 0 then [viewLabel (video.views.getD 0)] else []) ++
  (match video.ago with
   | some a => if a ≠ "" then ["Published " ++ a] else []
   | none => [])

/-- `VideoInsight` from the route (same shape as in the presentation layer). -/
structure VideoInsight where
  id : String
  title : String
  url : String
  thumbnail : String
  channel : String
  views : Nat
  ago : String
  description : String
  score : ℝ
  relevance : ℝ
  highlights : List String

/-- The per-candidate insight record built inside `POST`
(`route.ts` lines 443–458). -/
noncomputable def toInsight (keywords : List String) (video : VideoSearchResult) :
    VideoInsight :=
  { id := video.videoId.getD video.url
    title := video.title
    url := video.url
    thumbnail := (video.thumbnail.getD (video.image.getD ""))
    channel := ((video.author.map YtAuthor.name).getD none).getD "Unknown"
    views := video.views.getD 0
    ago := video.ago.getD "Unknown"
    description := video.description.getD ""
    score := (scoreVideo video keywords).1
    relevance := (scoreVideo video keywords).2
    highlights := buildHighlights video keywords }

/-- The comparator `(a, b) => b.score - a.score`: sort descending by score. -/
noncomputable def insightLe (a b : VideoInsight) : Bool :=
  decide (b.score ≤ a.score)

/-- The ranked, truncated insight list handed to every synthesizer and
returned as the `inspiration` field (`route.ts` lines 442–460): map each
deduplicated candidate to an insight, sort descending by score with a stable
sort, keep the top 12. -/
noncomputable def rankInsights (videos : List VideoSearchResult)
    (keywords : List String) : List VideoInsight :=
  ((videos.map (toInsight keywords)).mergeSort insightLe).take 12

theorem insightLe_trans : ∀ a b c : VideoInsight,
    insightLe a b = true → insightLe b c = true → insightLe a c = true := by
  intro a b c hab hbc
  simp only [insightLe, decide_eq_true_eq] at *
  linarith

theorem insightLe_total : ∀ a b : VideoInsight,
    (insightLe a b || insightLe b a) = true := by
  intro a b
  simp only [insightLe, Bool.or_eq_true, decide_eq_true_eq]
  exact le_total b.score a.score

/-- C2: for every candidate list and keyword list, the insight list produced
for synthesis (and returned as `inspiration`) is sorted in descending order
of composite score and has at most 12 elements. -/
theorem rankInsights_spec (videos : List VideoSearchResult) (keywords : List String) :
    List.Sorted (fun a b : VideoInsight => b.score ≤ a.score)
      (rankInsights videos keywords) ∧
    (rankInsights videos keywords).length ≤ 12 := by
  constructor
  · have hsorted : ((videos.map (toInsight keywords)).mergeSort insightLe).Pairwise
        (fun a b => insightLe a b = true) :=
      List.sorted_mergeSort insightLe_trans insightLe_total _
    have htake := List.Pairwise.sublist (List.take_sublist 12 _) hsorted
    refine htake.imp ?_
    intro a b h
    simpa [insightLe] using h
  · exact List.length_take_le 12 _

/-- `OutlineSegment` from the route. -/
structure OutlineSegment where
  title : String
  durationHint : String
  talkingPoints : List String
  brollIdeas : List String
deriving DecidableEq

/-- `theme.replace(/^\w/, (c) => c.toUpperCase())`: upper-case the first
character when it is a word character. -/
def capitalizeFirst (s : String) : String :=
  match s.toList with
  | [] => s
  | c :: rest => if isWordChar c then String.mk (Char.toUpper c :: rest) else s

/-- The fixed first outline segment. -/
def hookSegment (topic : String) : OutlineSegment :=
  { title := "Hook & Context"
    durationHint := "0:00 - 0:45"
    talkingPoints :=
      ["Drop an attention-grabbing stat or question that ties " ++ topic ++
         " to the viewer\x27s everyday stakes.",
       "Position the problem or opportunity in one sentence.",
       "Promise the transformation viewers will get by watching."]
    brollIdeas :=
      ["YouTube analytics dashboard zoom-in",
       "Trending article headlines montage",
       "Fast-cut reaction shots"] }

/-- Start time of the breakdown segment at `index` (hand-assigned table). -/
def breakdownStart (index : Nat) : String :=
  if index = 0 then "0:45" else if index = 1 then "2:30" else "4:00"

/-- End time of the breakdown segment at `index` (hand-assigned table). -/
def breakdownEnd (index : Nat) : String :=
  if index = 0 then "2:30" else if index = 1 then "4:00" else "5:30"

/-- The per-theme breakdown segment pushed by the `forEach` loop. -/
def breakdownSegment (index : Nat) (theme : String) : OutlineSegment :=
  { title := "Breakdown " ++ toString (index + 1) ++ ": " ++ capitalizeFirst theme
    durationHint := breakdownStart index ++ " - " ++ breakdownEnd index
    talkingPoints :=
      ["Summarize what top creators are saying about " ++ theme ++ ".",
       "Call out what worked (hooks, pacing, visuals, CTAs).",
       "Explain how your take will evolve or improve that angle."]
    brollIdeas :=
      ["Screen recordings of top videos with animated highlights",
       "Overlay of key statistics or quotes",
       "Relevant product or scenario footage"] }

/-- The fixed last outline segment. -/
def ctaSegment : OutlineSegment :=
  { title := "Action Plan & CTA"
    durationHint := "5:30 - 7:00"
    talkingPoints :=
      ["Summarize the playbook viewers can replicate.",
       "Share one bonus tip or contrarian insight.",
       "Invite engagement with a specific question or challenge."]
    brollIdeas :=
      ["Clean over-the-shoulder shot of action steps checklist",
       "Call-to-action animation",
       "Satisfied audience reaction visuals"] }

/-- `buildOutline` from the route (`route.ts` lines 239–292): the hook
segment, one breakdown per theme (at most 3, via `themes.slice(0, 3)`), and
the action-plan segment. -/
def buildOutline (topic : String) (themes : List String) : List OutlineSegment :=
  hookSegment topic ::
    ((themes.take 3).enum.map fun p => breakdownSegment p.1 p.2) ++ [ctaSegment]

/-- C8: `buildOutline` returns the fixed structure — "Hook & Context"
(0:00 - 0:45) always first, one "Breakdown N" per theme up to 3 with the
hand-assigned time table and the first character of the theme capitalized in the
title, "Action Plan & CTA" (5:30 - 7:00) always last, and every segment
carries exactly 3 talking points and 3 b-roll suggestions. -/
theorem buildOutline_spec (topic : String) (themes : List String) :
    (buildOutline topic themes).length = 2 + min themes.length 3 ∧
    ((buildOutline topic themes).head?.map OutlineSegment.title =
        some "Hook & Context" ∧
      (buildOutline topic themes).head?.map OutlineSegment.durationHint =
        some "0:00 - 0:45") ∧
    ((buildOutline topic themes).getLast?.map OutlineSegment.title =
        some "Action Plan & CTA" ∧
      (buildOutline topic themes).getLast?.map OutlineSegment.durationHint =
        some "5:30 - 7:00") ∧
    (breakdownStart 0 = "0:45" ∧ breakdownEnd 0 = "2:30" ∧
      breakdownStart 1 = "2:30" ∧ breakdownEnd 1 = "4:00" ∧
      breakdownStart 2 = "4:00" ∧ breakdownEnd 2 = "5:30") ∧
    (∀ (i : Nat) (theme : String), i < 3 → themes[i]? = some theme →
        (buildOutline topic themes)[i + 1]? = some (breakdownSegment i theme) ∧
        (breakdownSegment i theme).title =
          "Breakdown " ++ toString (i + 1) ++ ": " ++ capitalizeFirst theme ∧
        (breakdownSegment i theme).durationHint =
          breakdownStart i ++ " - " ++ breakdownEnd i) ∧
    (∀ seg ∈ buildOutline topic themes,
        seg.talkingPoints.length = 3 ∧ seg.brollIdeas.length = 3) := by
  refine ⟨?_, ⟨rfl, rfl⟩, ?_, ⟨rfl, rfl, rfl, rfl, rfl, rfl⟩, ?_, ?_⟩
  · simp only [buildOutline, List.length_cons, List.length_append,
      List.length_map, List.enum_length, List.length_take, List.length_nil]
    omega
  · have hsplit : buildOutline topic themes =
        (hookSegment topic ::
          ((themes.take 3).enum.map fun p => breakdownSegment p.1 p.2)) ++
          [ctaSegment] := by
      simp [buildOutline]
    rw [hsplit, List.getLast?_concat]
    exact ⟨rfl, rfl⟩
  · intro i theme hi3 hget
    refine ⟨?_, rfl, rfl⟩
    have hil : i < themes.length := by
      by_contra hc
      rw [List.getElem?_eq_none (le_of_not_lt hc)] at hget
      cases hget
    have hlen : i < ((themes.take 3).enum.map
        fun p => breakdownSegment p.1 p.2).length := by
      simp only [List.length_map, List.enum_length, List.length_take]
      omega
    have h1 : (buildOutline topic themes)[i + 1]? =
        (((themes.take 3).enum.map fun p => breakdownSegment p.1 p.2) ++
          [ctaSegment])[i]? := by
      simp [buildOutline]
    rw [h1, List.getElem?_append, if_pos hlen, List.getElem?_map, List.getElem?_enum,
      List.getElem?_take]
    simp [hi3, hget]
  · intro seg hseg
    simp only [buildOutline] at hseg
    have hcases : seg = hookSegment topic ∨
        (∃ p : Nat × String, seg = breakdownSegment p.1 p.2) ∨ seg = ctaSegment := by
      rcases List.mem_cons.mp hseg with h | h
      · exact Or.inl h
      · rcases List.mem_append.mp h with h' | h'
        · rcases List.mem_map.mp h' with ⟨p, _, hpe⟩
          exact Or.inr (Or.inl ⟨p, hpe.symm⟩)
        · exact Or.inr (Or.inr (List.mem_singleton.mp h'))
    rcases hcases with h | ⟨p, h⟩ | h <;> subst h <;> exact ⟨rfl, rfl⟩

/-- Witness for C8 at topic `"cats"` and themes `["alpha", "beta"]`. -/
theorem buildOutline_spec_witness :
    (buildOutline "cats" ["alpha", "beta"])[1]? = some (breakdownSegment 0 "alpha") ∧
    (breakdownSegment 0 "alpha").title =
      "Breakdown " ++ toString (0 + 1) ++ ": " ++ capitalizeFirst "alpha" ∧
    (breakdownSegment 0 "alpha").durationHint =
      breakdownStart 0 ++ " - " ++ breakdownEnd 0 :=
  (buildOutline_spec "cats" ["alpha", "beta"]).2.2.2.2.1 0 "alpha"
    (by decide) (by decide)

/-- `AnalyzeRequest` from the route; a missing JSON field is `none`. -/
structure AnalyzeRequest where
  topic : Option String
  description : Option String
  audience : Option String
  style : Option String
  duration : Option String
  language : Option String

/-- The fields of `AnalyzeResponse` that the verified properties concern.
The remaining fields (`summary`, `hookIdeas`, `narrativeAngle`,
`actionItems`, `seo`, `script`) are fixed prose templates over the same
`topic`/`themes`/`insights` inputs whose rendering depends on
locale-sensitive number formatting (`toLocaleString`); no stated property
mentions them, so the embedding leaves them out of the response record. -/
structure AnalyzeResponse where
  query : String
  keyThemes : List String
  outline : List OutlineSegment
  inspiration : List VideoInsight
  requestedAudience : Option String
  tone : Option String
  durationHint : Option String
  language : Option String

/-- Result of the route handler: a JSON payload or an error status/body. -/
inductive PostResult where
  | ok (resp : AnalyzeResponse)
  | error (status : Nat) (message : String)

/-- `POST` from the route (`route.ts` lines 410–495).  The provider is the
`yt-search` collaborator; the second component records the queries issued
(`fetchVideoSet` calls), so "no provider call is made" is observable. -/
noncomputable def POST (body : AnalyzeRequest)
    (provider : String → List VideoSearchResult) : PostResult × List String :=
  match body.topic with
  | none => (.error 400 "Topic is required", [])
  | some t =>
    let topic := trimStr t
    if topic = "" then (.error 400 "Topic is required", [])
    else
      let queryTokens := tokenize (topic ++ " " ++ body.description.getD "")
      let fallbackTokens :=
        if queryTokens.length > 0 then queryTokens else tokenize topic
      let queries := [topic, topic ++ " trending", "best " ++ topic]
      let combinedRaw := dedupeVideos
        (provider topic ++ provider (topic ++ " trending") ++
          provider ("best " ++ topic))
      if combinedRaw = [] then
        (.error 404 "No videos found for the provided topic.", queries)
      else
        let insights := rankInsights combinedRaw fallbackTokens
        let themeKeywords := aggregateKeywords
          (insights.map fun v => v.title ++ " " ++ v.description)
        let themes := themeKeywords.take 5
        (.ok { query := topic
               keyThemes := themes
               outline := buildOutline topic themes
               inspiration := insights
               requestedAudience := body.audience
               tone := body.style
               durationHint := body.duration
               language := body.language }, queries)

/-- C9: a missing or blank-after-trim topic yields a 400 response with a
non-empty message and no provider query; three empty provider result sets
yield a 404 response whose message mentions "no videos" (case-insensitively),
not a 500 failure. -/
theorem POST_errors :
    (∀ (body : AnalyzeRequest) (provider : String → List VideoSearchResult),
        (body.topic = none ∨ trimStr (body.topic.getD "") = "") →
        ∃ msg : String, (POST body provider).1 = PostResult.error 400 msg ∧
          msg ≠ "" ∧ (POST body provider).2 = []) ∧
    (∀ (body : AnalyzeRequest) (provider : String → List VideoSearchResult)
        (t : String),
        body.topic = some t → trimStr t ≠ "" →
        provider (trimStr t) = [] → provider (trimStr t ++ " trending") = [] →
        provider ("best " ++ trimStr t) = [] →
        ∃ msg : String, (POST body provider).1 = PostResult.error 404 msg ∧
          containsStr (toLowerStr msg) "no videos" = true) := by
  constructor
  · intro body provider h
    obtain ⟨bt, bd, ba, bs, bdu, bl⟩ := body
    simp only at h
    rcases h with h | h
    · subst h
      exact ⟨"Topic is required", by simp [POST], by decide, by simp [POST]⟩
    · cases bt with
      | none => exact ⟨"Topic is required", by simp [POST], by decide, by simp [POST]⟩
      | some t =>
        simp only [Option.getD] at h
        exact ⟨"Topic is required", by simp [POST, h], by decide, by simp [POST, h]⟩
  · intro body provider t ht htrim hp1 hp2 hp3
    obtain ⟨bt, bd, ba, bs, bdu, bl⟩ := body
    simp only at ht
    subst ht
    refine ⟨"No videos found for the provided topic.", ?_, by decide⟩
    simp [POST, htrim, hp1, hp2, hp3, dedupeVideos, dedupeAux]

/-- Witness for C9: an absent topic, and a topic with an all-empty provider. -/
theorem POST_errors_witness :
    (∃ msg : String,
        (POST ⟨none, none, none, none, none, none⟩ (fun _ => [])).1 =
          PostResult.error 400 msg ∧ msg ≠ "" ∧
        (POST ⟨none, none, none, none, none, none⟩ (fun _ => [])).2 = []) ∧
    (∃ msg : String,
        (POST ⟨some "cats", none, none, none, none, none⟩ (fun _ => [])).1 =
          PostResult.error 404 msg ∧
        containsStr (toLowerStr msg) "no videos" = true) :=
  ⟨POST_errors.1 ⟨none, none, none, none, none, none⟩ (fun _ => []) (Or.inl rfl),
   POST_errors.2 ⟨some "cats", none, none, none, none, none⟩ (fun _ => [])
     "cats" rfl (by decide) rfl rfl rfl⟩

/-- C10: `dedupeVideos` silently discards every candidate whose `videoId` is
missing or empty — no such candidate survives into the deduplicated list the
insights are built from — and when every video returned by the three provider
queries lacks a usable `videoId`, the request ends in the 404 "no videos"
outcome even though the provider returned a non-empty list. -/
theorem dedupe_discards_missing_ids :
    (∀ videos : List VideoSearchResult,
        (∀ v ∈ videos, v.videoId = none ∨ v.videoId = some "") →
        dedupeVideos videos = []) ∧
    (∀ videos : List VideoSearchResult, ∀ v ∈ dedupeVideos videos,
        v.videoId ≠ none ∧ v.videoId ≠ some "") ∧
    (∀ (body : AnalyzeRequest) (provider : String → List VideoSearchResult)
        (t : String),
        body.topic = some t → trimStr t ≠ "" →
        (∀ q : String, ∀ v ∈ provider q, v.videoId = none ∨ v.videoId = some "") →
        ∃ msg : String, (POST body provider).1 = PostResult.error 404 msg ∧
          containsStr (toLowerStr msg) "no videos" = true) := by
  have hall : ∀ videos : List VideoSearchResult,
      (∀ v ∈ videos, v.videoId = none ∨ v.videoId = some "") →
      dedupeVideos videos = [] := by
    intro videos h
    by_contra hne
    obtain ⟨v, hv⟩ := List.exists_mem_of_ne_nil _ hne
    obtain ⟨i, hvi, hine, _, hfind⟩ := dedupeAux_first videos [] v hv
    have hmem : v ∈ videos := List.mem_of_find?_eq_some hfind
    rcases h v hmem with h' | h'
    · rw [h'] at hvi; cases hvi
    · rw [h'] at hvi
      injection hvi with he
      exact hine he.symm
  refine ⟨hall, ?_, ?_⟩
  · intro videos v hv
    obtain ⟨i, hvi, hine, _, _⟩ := dedupeAux_first videos [] v hv
    constructor
    · rw [hvi]; exact fun h => Option.noConfusion h
    · rw [hvi]
      intro h
      injection h with he
      exact hine he
  · intro body provider t ht htrim hprov
    obtain ⟨bt, bd, ba, bs, bdu, bl⟩ := body
    simp only at ht
    subst ht
    have hcr : dedupeVideos
        (provider (trimStr t) ++ provider (trimStr t ++ " trending") ++
          provider ("best " ++ trimStr t)) = [] := by
      refine hall _ ?_
      intro v hv
      rcases List.mem_append.mp hv with h | h
      · rcases List.mem_append.mp h with h' | h'
        · exact hprov _ v h'
        · exact hprov _ v h'
      · exact hprov _ v h
    rw [List.append_assoc] at hcr
    refine ⟨"No videos found for the provided topic.", ?_, by decide⟩
    simp [POST, htrim, hcr]

/-- Witness for C10: a provider that returns one identifier-less video for
every query still produces the 404 "no videos" outcome. -/
theorem dedupe_discards_missing_ids_witness :
    ∃ msg : String,
      (POST ⟨some "cats", none, none, none, none, none⟩
          (fun _ => [{ cexVideo with videoId := none }])).1 =
        PostResult.error 404 msg ∧
      containsStr (toLowerStr msg) "no videos" = true := by
  refine dedupe_discards_missing_ids.2.2
    ⟨some "cats", none, none, none, none, none⟩
    (fun _ => [{ cexVideo with videoId := none }]) "cats" rfl (by decide) ?_
  intro q v hv
  rw [List.mem_singleton.mp hv]
  exact Or.inl rfl
